import Mathlib

/-!
Verification of the li-yuan-pipeline repository.

This file gives a shallow embedding, in Lean 4, of the data-transformation
logic of the pipeline: the ROC/CE date converter (`utils.py`), the
speaker-field parsing of the ingestion asset (`legislative.py`,
`speech_file`), the load-stage upserts into the `speech_data` fact table and
the `speaker_data` dimension table, and the `speech_count` aggregation
(`metrics.py`).  Python strings are modelled as Lean `String`/`List Char`,
fallible code returns `Option`, and database tables are lists of rows.
-/

namespace LiYuan

/-! ## Character utilities

`isDigitC` models the ASCII digit class used by the regexes `\d` in the
source (the data only ever carries ASCII digits), `wsC` the whitespace class
of `\s` and of Python `int()`'s surrounding-whitespace tolerance. -/

def isDigitC (c : Char) : Bool :=
  decide (c ∈ ['0', '1', '2', '3', '4', '5', '6', '7', '8', '9'])

def wsC (c : Char) : Bool :=
  decide (c ∈ [' ', '\t', '\n', '\r', '\x0b', '\x0c'])

def digitChar : Nat → Char
  | 0 => '0'
  | 1 => '1'
  | 2 => '2'
  | 3 => '3'
  | 4 => '4'
  | 5 => '5'
  | 6 => '6'
  | 7 => '7'
  | 8 => '8'
  | 9 => '9'
  | _ => '*'

/-- Value of a big-endian digit-character list, skipping non-digit
characters (Python `int()` ignores underscores between digits). -/
def digitsValue (cs : List Char) : Nat :=
  cs.foldl (fun a c => if isDigitC c then a * 10 + (c.toNat - 48) else a) 0

/-- Big-endian decimal digit characters, with `fuel ≥ n` for structural
termination. -/
def natDigitsGo : Nat → Nat → List Char
  | 0, _ => []
  | fuel + 1, n =>
    if n = 0 then [] else natDigitsGo fuel (n / 10) ++ [digitChar (n % 10)]

/-- Big-endian decimal digit characters of a natural number (empty for 0,
exactly as the padding-aware callers need). -/
def natDigitsL (n : Nat) : List Char :=
  natDigitsGo n n

/-- Left-pad a character list with zeros to width `w`. -/
def padZeros (w : Nat) (cs : List Char) : List Char :=
  List.replicate (w - cs.length) '0' ++ cs

/-- Python `f"{n:0wd}"` formatting of an integer: zero-padded to total
width `w`, the sign counting toward the width. -/
def pyFormatInt (w : Nat) (n : Int) : List Char :=
  if n < 0 then '-' :: padZeros (w - 1) (natDigitsL n.natAbs)
  else padZeros w (natDigitsL n.toNat)

/-! ## Date model

`Date` models Python `datetime.date`: the constructor validates
`1 <= year <= 9999`, `1 <= month <= 12`, `1 <= day <= days in month`
(proleptic Gregorian), raising `ValueError` otherwise — modelled by
`mkDate` returning `none`. -/

structure Date where
  year : Nat
  month : Nat
  day : Nat
deriving DecidableEq, Repr

def isLeapYear (y : Nat) : Bool :=
  y % 4 == 0 && (y % 100 != 0 || y % 400 == 0)

def daysInMonth (y m : Nat) : Nat :=
  if m = 2 then (if isLeapYear y then 29 else 28)
  else if m = 4 ∨ m = 6 ∨ m = 9 ∨ m = 11 then 30
  else 31

def Date.Valid (d : Date) : Prop :=
  1 ≤ d.year ∧ d.year ≤ 9999 ∧ 1 ≤ d.month ∧ d.month ≤ 12 ∧
    1 ≤ d.day ∧ d.day ≤ daysInMonth d.year d.month

instance (d : Date) : Decidable d.Valid := by
  unfold Date.Valid; infer_instance

/-- Python `datetime.date(y, m, d)`: validates its arguments, `none` models the
`ValueError` raised on an out-of-range component. -/
def mkDate (y m d : Int) : Option Date :=
  if 1 ≤ y ∧ y ≤ 9999 ∧ 1 ≤ m ∧ m ≤ 12 ∧ 1 ≤ d ∧
      d ≤ (daysInMonth y.toNat m.toNat : Int) then
    some ⟨y.toNat, m.toNat, d.toNat⟩
  else none

/-! ## `utils.py`: the date converter -/

/-- Embeds `ce_date_to_roc_string` (utils.py, date/datetime input branch):
`f"{roc_year:03d}{separator}{month:02d}{separator}{day:02d}"` with
`roc_year = year - 1911`. -/
def ce_date_to_roc_string (d : Date) (separator : String) : String :=
  ⟨pyFormatInt 3 ((d.year : Int) - 1911) ++ separator.data ++
    pyFormatInt 2 (d.month : Int) ++ separator.data ++
    pyFormatInt 2 (d.day : Int)⟩

/-- Python `str.split(sep)` for a one-character separator. -/
def splitOnChar (sep : Char) : List Char → List (List Char)
  | [] => [[]]
  | c :: rest =>
    if c = sep then [] :: splitOnChar sep rest
    else
      match splitOnChar sep rest with
      | [] => [[c]]
      | h :: t => (c :: h) :: t

/-- Strip leading and trailing whitespace (Python `int()` tolerates it). -/
def stripWs (cs : List Char) : List Char :=
  ((cs.dropWhile wsC).reverse.dropWhile wsC).reverse

/-- No two consecutive underscores (Python `int()` digit-grouping rule). -/
def noDoubleUnderscore : List Char → Bool
  | [] => true
  | [_] => true
  | a :: b :: rest =>
    !(a == '_' && b == '_') && noDoubleUnderscore (b :: rest)

/-- A nonempty string of digits, possibly with single underscores strictly
between digits — the digit-sequence grammar of Python `int()`. -/
def validDigitsU (cs : List Char) : Bool :=
  !cs.isEmpty && cs.all (fun c => isDigitC c || c == '_') &&
    cs.head? != some '_' && cs.getLast? != some '_' && noDoubleUnderscore cs

def parseDigitsU (cs : List Char) : Option Nat :=
  if validDigitsU cs then some (digitsValue cs) else none

/-- Python `int(s)` on a decimal string: strips surrounding whitespace,
accepts an optional sign, then a digit sequence; `none` models the
`ValueError` on anything else. -/
def pyIntL (cs0 : List Char) : Option Int :=
  match stripWs cs0 with
  | [] => none
  | c :: rest =>
    if c = '-' then (parseDigitsU rest).map (fun n => -(n : Int))
    else if c = '+' then (parseDigitsU rest).map (fun n => (n : Int))
    else (parseDigitsU (c :: rest)).map (fun n => (n : Int))

/-- Embeds `roc_string_to_ce_date` (utils.py): picks "/" as separator when the
string contains one, else "-", splits, parses the first three parts with
`int`, adds 1911 to the year and builds a `datetime.date`.  `none` models
the uncaught `IndexError`/`ValueError`. -/
def roc_string_to_ce_date (s : String) : Option Date :=
  let sep := if '/' ∈ s.data then '/' else '-'
  let parts := splitOnChar sep s.data
  match parts[0]?, parts[1]?, parts[2]? with
  | some p0, some p1, some p2 =>
    match pyIntL p0, pyIntL p1, pyIntL p2 with
    | some y, some m, some d => mkDate (y + 1911) m d
    | _, _, _ => none
  | _, _, _ => none

/-- Python `datetime.strptime(s, "%Y-%m-%d").date()`: the string-input branch of
`ce_date_to_roc_string` parses an ISO date first. -/
def parseIsoDate (s : String) : Option Date :=
  match splitOnChar '-' s.data with
  | [y, m, d] =>
    if !y.isEmpty && y.all isDigitC && !m.isEmpty && m.all isDigitC &&
        !d.isEmpty && d.all isDigitC then
      mkDate (digitsValue y) (digitsValue m) (digitsValue d)
    else none
  | _ => none

/-- Embeds `ce_date_to_roc_string` when handed an ISO date string (the
`isinstance(ce_date, str)` branch of utils.py). -/
def ce_date_to_roc_string_of_iso (s : String) (separator : String) :
    Option String :=
  (parseIsoDate s).map (fun d => ce_date_to_roc_string d separator)

/-! ## `legislative.py` `speech_file`: speaker-field parsing

The polars expression chain on the raw `speechers` field:
`fill_null("") |> strip_chars(", ") |> strip_chars(" ") |> split(",")
 |> explode |> strip_chars(" ")` per token, then
`speaker_id = extract(r"(\d+)", 1).cast(UInt32)` and
`speaker = replace_all(\d+, "") |> replace_all(\s+, " ") |> strip_chars(" ")`. -/

/-- polars `str.strip_chars(set)`: drop characters of `set` from both ends. -/
def stripCharsBoth (set : List Char) (cs : List Char) : List Char :=
  ((cs.dropWhile (fun c => decide (c ∈ set))).reverse.dropWhile
    (fun c => decide (c ∈ set))).reverse

/-- Helper for `collapseWs`: the flag records whether the previous
character was whitespace (so the run emits only one space). -/
def collapseWsAux : Bool → List Char → List Char
  | _, [] => []
  | prevWs, c :: rest =>
    if wsC c then
      if prevWs then collapseWsAux true rest
      else ' ' :: collapseWsAux true rest
    else c :: collapseWsAux false rest

/-- polars `replace_all(r"\s+", " ")`: collapse each whitespace run to one space. -/
def collapseWs (cs : List Char) : List Char :=
  collapseWsAux false cs

/-- The tokens produced for one raw `speechers` field: strip `", "` from the
ends, strip spaces, split on `","`, strip spaces from each token. -/
def tokenize (s : String) : List (List Char) :=
  (splitOnChar ','
      (stripCharsBoth [' '] (stripCharsBoth [',', ' '] s.data))).map
    (stripCharsBoth [' '])

/-- polars `str.extract(r"(\d+)", 1)`: the leftmost maximal digit run, `none` when
the token has no digit. -/
def extractId (t : List Char) : Option Nat :=
  match t.dropWhile (fun c => !isDigitC c) with
  | [] => none
  | c :: rest => some (digitsValue ((c :: rest).takeWhile isDigitC))

/-- The speaker display name of a token: digits removed, whitespace runs
collapsed to one space, spaces stripped from the ends. -/
def cleanNameToken (t : List Char) : List Char :=
  stripCharsBoth [' '] (collapseWs (t.filter (fun c => !isDigitC c)))

/-- The speaker-field transformation of `speech_file`: the
`(speaker_id, speaker)` pairs produced from one raw field. -/
def parseSpeakerField (s : String) : List (Option Nat × String) :=
  (tokenize s).map (fun t => (extractId t, ⟨cleanNameToken t⟩))

/-! ## `legislative.py` load stage: tables and upserts -/

/-- One row of the partition parquet file written by `speech_file`. -/
structure FileRow where
  meeting_date : Date
  meeting_status : String
  meeting_name : String
  meeting_content : String
  meeting_unit : String
  speaker : String
  speaker_id : Option Nat
  partition_date : String
deriving DecidableEq, Repr

/-- One row of the `speech_data` DuckDB fact table (the seven expected
columns; `select(expected_cols)` drops `speaker`). -/
structure SpeechRow where
  meeting_date : Date
  meeting_status : String
  meeting_name : String
  meeting_content : String
  meeting_unit : String
  speaker_id : Option Nat
  partition_date : String
deriving DecidableEq, Repr

def FileRow.toSpeechRow (r : FileRow) : SpeechRow :=
  ⟨r.meeting_date, r.meeting_status, r.meeting_name, r.meeting_content,
    r.meeting_unit, r.speaker_id, r.partition_date⟩

/-- The `speech_data` DB write:
`DELETE FROM speech_data WHERE partition_date = p` then
`INSERT INTO speech_data SELECT ... FROM tmp_speech`. -/
def loadSpeechData (p : String) (fileRows : List FileRow)
    (table : List SpeechRow) : List SpeechRow :=
  table.filter (fun r => r.partition_date != p) ++
    fileRows.map FileRow.toSpeechRow

def expected_cols : List String :=
  ["meeting_date", "meeting_status", "meeting_name", "meeting_content",
    "meeting_unit", "speaker_id", "partition_date"]

/-- The dataframe read from a partition parquet file: its column names and
its rows. -/
structure Frame where
  cols : List String
  rows : List FileRow

/-- The whole `speech_data` asset body for one partition: `none` input
models `FileNotFoundError` on `read_parquet` (warning, return), a missing
expected column raises `ValueError` before the DB connection is opened
(first component `some` message), otherwise delete-then-insert.  Returns
(raised error?, table after). -/
def speechDataAsset (p : String) (file : Option Frame)
    (table : List SpeechRow) : Option String × List SpeechRow :=
  match file with
  | none => (none, table)
  | some df =>
    let missing := expected_cols.filter (fun c => decide (c ∉ df.cols))
    if missing.isEmpty then (none, loadSpeechData p df.rows table)
    else (some "Missing expected columns in dataframe", table)

/-- The `speaker_data` asset's dimension input:
`select([speaker_id, speaker]).unique()` then
`drop_nulls(subset=[speaker_id])`. -/
def extractSpeakers (fileRows : List FileRow) : List (Nat × String) :=
  ((fileRows.map (fun r => (r.speaker_id, r.speaker))).dedup).filterMap
    (fun q => q.1.map (fun i => (i, q.2)))

def keysOf (t : List (Nat × String)) : List Nat := t.map Prod.fst

def hasKey (t : List (Nat × String)) (i : Nat) : Bool :=
  t.any (fun q => q.1 == i)

/-- One row of `INSERT INTO speaker_data ... ON CONFLICT (speaker_id) DO
UPDATE SET speaker = EXCLUDED.speaker`: overwrite the stored name when the
key is present, append otherwise. -/
def upsertSpeaker (t : List (Nat × String)) (q : Nat × String) :
    List (Nat × String) :=
  if hasKey t q.1 then
    t.map (fun r => if r.1 == q.1 then (r.1, q.2) else r)
  else t ++ [q]

/-- The whole `speaker_data` upsert statement over the incoming row set. -/
def upsertSpeakers (t : List (Nat × String)) (ins : List (Nat × String)) :
    List (Nat × String) :=
  ins.foldl upsertSpeaker t

/-! ## `metrics.py` `speech_count`: the aggregation query -/

/-- The names contributed by one fact row under
`JOIN speaker_data s ON d.speaker_id = s.speaker_id`. -/
def speakersFor (dim : List (Nat × String)) : Option Nat → List String
  | some i => (dim.filter (fun q => q.1 == i)).map Prod.snd
  | none => []

def joinedNames (facts : List SpeechRow) (dim : List (Nat × String)) :
    List String :=
  facts.flatMap (fun r => speakersFor dim r.speaker_id)

/-- Embeds `SELECT s.speaker, COUNT(*) FROM speech_data d JOIN speaker_data s ON
d.speaker_id = s.speaker_id GROUP BY s.speaker ORDER BY speech_count DESC`. -/
def speech_count (facts : List SpeechRow) (dim : List (Nat × String)) :
    List (String × Nat) :=
  let names := joinedNames facts dim
  List.insertionSort (fun a b : String × Nat => b.2 ≤ a.2)
    (names.dedup.map (fun n => (n, names.count n)))

def sumCounts (l : List (String × Nat)) : Nat := (l.map Prod.snd).sum

/-! ## Lemmas: digit strings and Python `int` parsing -/

theorem isDigitC_digitChar {d : Nat} (h : d < 10) :
    isDigitC (digitChar d) = true := by
  interval_cases d <;> decide

theorem digitChar_sub48 {d : Nat} (h : d < 10) :
    (digitChar d).toNat - 48 = d := by
  interval_cases d <;> decide

theorem isDigitC_spec {c : Char} (h : isDigitC c = true) :
    wsC c = false ∧ c ≠ '-' ∧ c ≠ '+' ∧ c ≠ '_' ∧ c ≠ '/' := by
  have hc : c ∈ ['0', '1', '2', '3', '4', '5', '6', '7', '8', '9'] := by
    simpa [isDigitC] using h
  fin_cases hc <;> decide

theorem digitsValue_append_digit (xs : List Char) {d : Nat} (h : d < 10) :
    digitsValue (xs ++ [digitChar d]) = digitsValue xs * 10 + d := by
  simp [digitsValue, List.foldl_append, isDigitC_digitChar h,
    digitChar_sub48 h]

theorem natDigitsGo_all_digit :
    ∀ fuel n : Nat, ∀ c ∈ natDigitsGo fuel n, isDigitC c = true := by
  intro fuel
  induction fuel with
  | zero => intro n c hc; simp [natDigitsGo] at hc
  | succ fuel ih =>
    intro n c hc
    by_cases h0 : n = 0
    · simp [natDigitsGo, h0] at hc
    · simp only [natDigitsGo, if_neg h0, List.mem_append,
        List.mem_singleton] at hc
      rcases hc with hc | hc
      · exact ih _ _ hc
      · subst hc
        exact isDigitC_digitChar (Nat.mod_lt _ (by norm_num))

theorem natDigitsGo_value :
    ∀ fuel n : Nat, n ≤ fuel → digitsValue (natDigitsGo fuel n) = n := by
  intro fuel
  induction fuel with
  | zero =>
    intro n hn
    have : n = 0 := Nat.le_zero.1 hn
    simp [natDigitsGo, this, digitsValue]
  | succ fuel ih =>
    intro n hn
    by_cases h0 : n = 0
    · simp [natDigitsGo, h0, digitsValue]
    · have hdiv : n / 10 ≤ fuel := by
        have : n / 10 < n := Nat.div_lt_self (Nat.pos_of_ne_zero h0)
          (by norm_num)
        omega
      rw [natDigitsGo, if_neg h0,
        digitsValue_append_digit _ (Nat.mod_lt _ (by norm_num)), ih _ hdiv]
      omega

theorem natDigitsL_value (n : Nat) : digitsValue (natDigitsL n) = n :=
  natDigitsGo_value n n le_rfl

theorem natDigitsL_all_digit (n : Nat) :
    ∀ c ∈ natDigitsL n, isDigitC c = true :=
  natDigitsGo_all_digit n n

theorem padZeros_all_digit {cs : List Char}
    (h : ∀ c ∈ cs, isDigitC c = true) (w : Nat) :
    ∀ c ∈ padZeros w cs, isDigitC c = true := by
  intro c hc
  rcases List.mem_append.1 hc with hc | hc
  · rw [List.eq_of_mem_replicate hc]; decide
  · exact h c hc

theorem digitsValue_padZeros (w : Nat) (cs : List Char) :
    digitsValue (padZeros w cs) = digitsValue cs := by
  unfold padZeros digitsValue
  rw [List.foldl_append]
  have : ∀ k : Nat,
      (List.replicate k '0').foldl
        (fun a c => if isDigitC c then a * 10 + (c.toNat - 48) else a) 0
        = 0 := by
    intro k
    induction k with
    | zero => rfl
    | succ k ih => simpa [List.replicate_succ] using ih
  rw [this]

theorem padZeros_ne_nil {w : Nat} (hw : 1 ≤ w) (cs : List Char) :
    padZeros w cs ≠ [] := by
  unfold padZeros
  intro h
  rcases List.append_eq_nil.1 h with ⟨h1, h2⟩
  subst h2
  simp only [List.length_nil, Nat.sub_zero, List.replicate_eq_nil_iff] at h1
  omega

theorem dropWhile_eq_self_of {p : Char → Bool} {cs : List Char}
    (h : ∀ c ∈ cs, p c = false) : cs.dropWhile p = cs := by
  cases cs with
  | nil => rfl
  | cons a l =>
    rw [List.dropWhile_cons, h a (List.mem_cons_self a l)]
    simp

theorem stripWs_eq_self {cs : List Char}
    (h : ∀ c ∈ cs, wsC c = false) : stripWs cs = cs := by
  unfold stripWs
  rw [dropWhile_eq_self_of h,
    dropWhile_eq_self_of (fun c hc => h c (List.mem_reverse.1 hc)),
    List.reverse_reverse]

theorem noDoubleUnderscore_of {cs : List Char}
    (h : ∀ c ∈ cs, c ≠ '_') : noDoubleUnderscore cs = true := by
  induction cs with
  | nil => rfl
  | cons a l ih =>
    cases l with
    | nil => rfl
    | cons b r =>
      have ha : (a == '_') = false := by
        simpa using h a (List.mem_cons_self _ _)
      have : noDoubleUnderscore (b :: r) = true :=
        ih (fun c hc => h c (List.mem_cons_of_mem a hc))
      simp [noDoubleUnderscore, ha, this]

theorem parseDigitsU_of_digits {cs : List Char} (hne : cs ≠ [])
    (h : ∀ c ∈ cs, isDigitC c = true) :
    parseDigitsU cs = some (digitsValue cs) := by
  unfold parseDigitsU validDigitsU
  have hall : cs.all (fun c => isDigitC c || c == '_') = true :=
    List.all_eq_true.2 (fun c hc => by simp [h c hc])
  have hhead : (cs.head? != some '_') = true := by
    cases hcs : cs.head? with
    | none => rfl
    | some c =>
      have hc : c ∈ cs := by
        cases cs with
        | nil => simp at hcs
        | cons a l =>
          simp only [List.head?_cons, Option.some.injEq] at hcs
          exact hcs ▸ List.mem_cons_self a l
      simpa using (isDigitC_spec (h c hc)).2.2.2.1
  have hlast : (cs.getLast? != some '_') = true := by
    cases hcs : cs.getLast? with
    | none => rfl
    | some c =>
      have hc : c ∈ cs := List.mem_of_mem_getLast? hcs
      simpa using (isDigitC_spec (h c hc)).2.2.2.1
  have hnd : noDoubleUnderscore cs = true :=
    noDoubleUnderscore_of (fun c hc => (isDigitC_spec (h c hc)).2.2.2.1)
  simp [List.isEmpty_iff, hne, hall, hhead, hlast, hnd]

theorem pyIntL_of_digits {cs : List Char} (hne : cs ≠ [])
    (h : ∀ c ∈ cs, isDigitC c = true) :
    pyIntL cs = some ((digitsValue cs : Nat) : Int) := by
  unfold pyIntL
  rw [stripWs_eq_self (fun c hc => (isDigitC_spec (h c hc)).1)]
  cases cs with
  | nil => exact absurd rfl hne
  | cons c rest =>
    have hc := isDigitC_spec (h c (List.mem_cons_self c rest))
    dsimp only
    rw [if_neg hc.2.1, if_neg hc.2.2.1,
      parseDigitsU_of_digits (by simp) h]
    rfl

theorem pyFormatInt_natCast (w : Nat) (n : Nat) :
    pyFormatInt w (n : Int) = padZeros w (natDigitsL n) := by
  unfold pyFormatInt
  rw [if_neg (by omega), Int.toNat_natCast]

theorem pyIntL_pyFormat_nat {w : Nat} (hw : 1 ≤ w) (n : Nat) :
    pyIntL (pyFormatInt w (n : Int)) = some ((n : Nat) : Int) := by
  rw [pyFormatInt_natCast,
    pyIntL_of_digits (padZeros_ne_nil hw _)
      (padZeros_all_digit (natDigitsL_all_digit n) w),
    digitsValue_padZeros, natDigitsL_value]

theorem pyFormat_all_digit (w n : Nat) :
    ∀ c ∈ pyFormatInt w (n : Int), isDigitC c = true := by
  rw [pyFormatInt_natCast]
  exact padZeros_all_digit (natDigitsL_all_digit n) w

/-! ## Lemmas: `splitOnChar` -/

theorem splitOnChar_not_mem {sep : Char} :
    ∀ {cs : List Char}, sep ∉ cs → splitOnChar sep cs = [cs] := by
  intro cs
  induction cs with
  | nil => intro _; rfl
  | cons c rest ih =>
    intro h
    have hc : ¬ c = sep := fun hcs => h (hcs ▸ List.mem_cons_self c rest)
    rw [splitOnChar, if_neg hc, ih (fun hm => h (List.mem_cons_of_mem c hm))]

theorem splitOnChar_append {sep : Char} {a : List Char} (ha : sep ∉ a)
    (b : List Char) :
    splitOnChar sep (a ++ sep :: b) = a :: splitOnChar sep b := by
  induction a with
  | nil => simp [splitOnChar]
  | cons c a' ih =>
    have hc : ¬ c = sep := fun hcs => ha (hcs ▸ List.mem_cons_self c a')
    rw [List.cons_append, splitOnChar, if_neg hc,
      ih (fun hm => ha (List.mem_cons_of_mem c hm))]

/-! ## Lemmas: `mkDate` -/

theorem mkDate_valid {d : Date} (h : d.Valid) :
    mkDate (d.year : Int) (d.month : Int) (d.day : Int) = some d := by
  obtain ⟨h1, h2, h3, h4, h5, h6⟩ := h
  unfold mkDate
  rw [if_pos]
  · simp
  · refine ⟨by omega, by omega, by omega, by omega, by omega, ?_⟩
    rw [Int.toNat_natCast, Int.toNat_natCast]
    omega

theorem mkDate_some {y m d : Int} {dt : Date} (h : mkDate y m d = some dt) :
    (dt.year : Int) = y ∧ (dt.month : Int) = m ∧ (dt.day : Int) = d ∧
      dt.Valid := by
  unfold mkDate at h
  split at h
  · rename_i hcond
    obtain ⟨c1, c2, c3, c4, c5, c6⟩ := hcond
    injection h with h
    subst h
    unfold Date.Valid
    dsimp only
    refine ⟨?_, ?_, ?_, ?_, ?_, ?_, ?_, ?_, ?_⟩ <;> omega
  · exact absurd h (by simp)

/-! ## Lemmas: `roc_string_to_ce_date` on well-formed inputs -/

theorem roc_string_eval {s : String} {a b c : List Char} {sepc : Char}
    (hsep : (if '/' ∈ s.data then '/' else '-') = sepc)
    (hsplit : splitOnChar sepc s.data = [a, b, c])
    {y m d : Int} (hy : pyIntL a = some y) (hm : pyIntL b = some m)
    (hd : pyIntL c = some d) :
    roc_string_to_ce_date s = mkDate (y + 1911) m d := by
  unfold roc_string_to_ce_date
  rw [hsep]
  dsimp only
  rw [hsplit]
  simp [hy, hm, hd]

theorem splitOnChar_three {sepc : Char} {a b c : List Char} (ha : sepc ∉ a)
    (hb : sepc ∉ b) (hc : sepc ∉ c) :
    splitOnChar sepc (a ++ [sepc] ++ b ++ [sepc] ++ c) = [a, b, c] := by
  have h1 : a ++ [sepc] ++ b ++ [sepc] ++ c =
      a ++ sepc :: (b ++ sepc :: c) := by
    simp [List.append_assoc]
  rw [h1, splitOnChar_append ha, splitOnChar_append hb,
    splitOnChar_not_mem hc]

/-! ## Claim C1 -/

/-- C1 (amended): for every valid calendar date `d` with year 1912 or
later, and every separator the parser detects (that is, `"/"` or `"-"`),
`roc_string_to_ce_date (ce_date_to_roc_string d sep) = some d`.  The
original claim's "any separator string, including the empty separator" is
refuted by `c1_empty_separator_cex`. -/
theorem c1_roundtrip (dt : Date) (sep : String) (hv : dt.Valid)
    (hy : 1912 ≤ dt.year) (hsep : sep = "/" ∨ sep = "-") :
    roc_string_to_ce_date (ce_date_to_roc_string dt sep) = some dt := by
  have hyeq : (dt.year : Int) - 1911 = ((dt.year - 1911 : Nat) : Int) := by
    omega
  have hAv : pyIntL (pyFormatInt 3 ((dt.year : Int) - 1911)) =
      some ((dt.year - 1911 : Nat) : Int) := by
    rw [hyeq]; exact pyIntL_pyFormat_nat (by norm_num) _
  have hAdig : ∀ ch ∈ pyFormatInt 3 ((dt.year : Int) - 1911),
      isDigitC ch = true := by
    rw [hyeq]; exact pyFormat_all_digit 3 _
  have hBv : pyIntL (pyFormatInt 2 (dt.month : Int)) =
      some ((dt.month : Nat) : Int) := pyIntL_pyFormat_nat (by norm_num) _
  have hBdig := pyFormat_all_digit 2 dt.month
  have hCv : pyIntL (pyFormatInt 2 (dt.day : Int)) =
      some ((dt.day : Nat) : Int) := pyIntL_pyFormat_nat (by norm_num) _
  have hCdig := pyFormat_all_digit 2 dt.day
  have hAslash : '/' ∉ pyFormatInt 3 ((dt.year : Int) - 1911) :=
    fun h => ((isDigitC_spec (hAdig _ h)).2.2.2.2) rfl
  have hBslash : '/' ∉ pyFormatInt 2 (dt.month : Int) :=
    fun h => ((isDigitC_spec (hBdig _ h)).2.2.2.2) rfl
  have hCslash : '/' ∉ pyFormatInt 2 (dt.day : Int) :=
    fun h => ((isDigitC_spec (hCdig _ h)).2.2.2.2) rfl
  have hAdash : '-' ∉ pyFormatInt 3 ((dt.year : Int) - 1911) :=
    fun h => ((isDigitC_spec (hAdig _ h)).2.1) rfl
  have hBdash : '-' ∉ pyFormatInt 2 (dt.month : Int) :=
    fun h => ((isDigitC_spec (hBdig _ h)).2.1) rfl
  have hCdash : '-' ∉ pyFormatInt 2 (dt.day : Int) :=
    fun h => ((isDigitC_spec (hCdig _ h)).2.1) rfl
  have hfin : mkDate (((dt.year - 1911 : Nat) : Int) + 1911)
      (dt.month : Int) (dt.day : Int) = some dt := by
    have h19 : ((dt.year - 1911 : Nat) : Int) + 1911 = (dt.year : Int) := by
      omega
    rw [h19]; exact mkDate_valid hv
  rcases hsep with rfl | rfl
  · have hsdata : (ce_date_to_roc_string dt "/").data =
        pyFormatInt 3 ((dt.year : Int) - 1911) ++ ['/'] ++
          pyFormatInt 2 (dt.month : Int) ++ ['/'] ++
          pyFormatInt 2 (dt.day : Int) := rfl
    have hmem : '/' ∈ (ce_date_to_roc_string dt "/").data := by
      rw [hsdata]; simp
    have hif : (if '/' ∈ (ce_date_to_roc_string dt "/").data then '/'
        else '-') = '/' := if_pos hmem
    have hsplit : splitOnChar '/' (ce_date_to_roc_string dt "/").data =
        [pyFormatInt 3 ((dt.year : Int) - 1911),
          pyFormatInt 2 (dt.month : Int), pyFormatInt 2 (dt.day : Int)] := by
      rw [hsdata]; exact splitOnChar_three hAslash hBslash hCslash
    rw [roc_string_eval hif hsplit hAv hBv hCv]
    exact hfin
  · have hsdata : (ce_date_to_roc_string dt "-").data =
        pyFormatInt 3 ((dt.year : Int) - 1911) ++ ['-'] ++
          pyFormatInt 2 (dt.month : Int) ++ ['-'] ++
          pyFormatInt 2 (dt.day : Int) := rfl
    have hnot : '/' ∉ (ce_date_to_roc_string dt "-").data := by
      rw [hsdata]
      simp only [List.mem_append, List.mem_singleton]
      rintro ((((h | h) | h) | h) | h)
      · exact hAslash h
      · exact absurd h (by decide)
      · exact hBslash h
      · exact absurd h (by decide)
      · exact hCslash h
    have hif : (if '/' ∈ (ce_date_to_roc_string dt "-").data then '/'
        else '-') = '-' := if_neg hnot
    have hsplit : splitOnChar '-' (ce_date_to_roc_string dt "-").data =
        [pyFormatInt 3 ((dt.year : Int) - 1911),
          pyFormatInt 2 (dt.month : Int), pyFormatInt 2 (dt.day : Int)] := by
      rw [hsdata]; exact splitOnChar_three hAdash hBdash hCdash
    rw [roc_string_eval hif hsplit hAv hBv hCv]
    exact hfin

/-- Witness for C1: the amended round trip at the concrete date
2023-05-20 with separator "/". -/
theorem c1_roundtrip_witness :
    roc_string_to_ce_date (ce_date_to_roc_string ⟨2023, 5, 20⟩ "/") =
      some ⟨2023, 5, 20⟩ :=
  c1_roundtrip ⟨2023, 5, 20⟩ "/" (by decide) (by decide) (Or.inl rfl)

/-- Counterexample for C1 as stated: 2023-05-20 is a valid date with year
at least 1912, yet the round trip through the empty separator does not
return the date (the parser finds no "-" to split on and fails). -/
theorem c1_empty_separator_cex :
    Date.Valid ⟨2023, 5, 20⟩ ∧ 1912 ≤ (2023 : Nat) ∧
      roc_string_to_ce_date (ce_date_to_roc_string ⟨2023, 5, 20⟩ "") ≠
        some ⟨2023, 5, 20⟩ := by
  refine ⟨by decide, by decide, by decide⟩

/-! ## Claim C6 -/

/-- C6: `ce_date_to_roc_string` formats year−1911 zero-padded to 3 digits
with zero-padded 2-digit month and day joined by the separator ("/" being
the module's default), and accepts an ISO date string as well as a date;
2023-05-20 with "-" yields "112-05-20", and `roc_string_to_ce_date`
on "112/05/20" yields 2023-05-20. -/
theorem c6_conversion_examples :
    ce_date_to_roc_string ⟨2023, 5, 20⟩ "-" = "112-05-20" ∧
      ce_date_to_roc_string ⟨2023, 5, 20⟩ "/" = "112/05/20" ∧
      ce_date_to_roc_string ⟨1912, 1, 5⟩ "/" = "001/01/05" ∧
      roc_string_to_ce_date "112/05/20" = some ⟨2023, 5, 20⟩ ∧
      ce_date_to_roc_string_of_iso "2023-05-20" "-" = some "112-05-20" :=
  ⟨by decide, by decide, by decide, by decide, by decide⟩

/-! ## Claim C7 -/

/-- C7: `roc_string_to_ce_date` detects the separator ("/" when present,
else "-") and splits on it; it returns the parse failure (uncaught, not
defaulted) whenever the split has fewer than 3 parts or one of the first
three parts is non-numeric; on success the calendar year is 1911 plus the
numeric value of the first part. -/
theorem c7_parse_failure :
    (∀ s : String,
        ((splitOnChar (if '/' ∈ s.data then '/' else '-') s.data).length < 3
            ∨ ∃ p ∈ (splitOnChar (if '/' ∈ s.data then '/' else '-')
                s.data).take 3, pyIntL p = none) →
        roc_string_to_ce_date s = none) ∧
      (∀ (s : String) (d : Date), roc_string_to_ce_date s = some d →
        ∃ p0 y,
          (splitOnChar (if '/' ∈ s.data then '/' else '-') s.data).head? =
              some p0 ∧
            pyIntL p0 = some y ∧ (d.year : Int) = y + 1911) := by
  constructor
  · intro s h
    unfold roc_string_to_ce_date
    dsimp only
    generalize hp : splitOnChar (if '/' ∈ s.data then '/' else '-') s.data
      = parts at h ⊢
    rcases parts with _ | ⟨a, _ | ⟨b, _ | ⟨c, rest⟩⟩⟩
    · simp
    · simp
    · simp
    · rcases h with h | ⟨p, hmem, hpy⟩
      · simp at h; omega
      · simp only [List.take, List.mem_cons, List.not_mem_nil,
          or_false] at hmem
        rcases hmem with rfl | rfl | rfl <;> simp [hpy]
  · intro s d h
    unfold roc_string_to_ce_date at h
    dsimp only at h
    generalize hp : splitOnChar (if '/' ∈ s.data then '/' else '-') s.data
      = parts at h ⊢
    rcases parts with _ | ⟨a, _ | ⟨b, _ | ⟨c, rest⟩⟩⟩
    · simp at h
    · simp at h
    · simp at h
    · simp only [List.getElem?_cons_zero, List.getElem?_cons_succ] at h
      cases hpa : pyIntL a with
      | none => rw [hpa] at h; simp at h
      | some y =>
        rw [hpa] at h
        cases hpb : pyIntL b with
        | none => rw [hpb] at h; simp at h
        | some m =>
          rw [hpb] at h
          cases hpc : pyIntL c with
          | none => rw [hpc] at h; simp at h
          | some dd =>
            rw [hpc] at h
            simp only at h
            exact ⟨a, y, rfl, hpa, (mkDate_some h).1⟩

/-- Witness for C7: a two-part string fails, a non-numeric part fails, and
a successful parse recovers the year by adding 1911. -/
theorem c7_parse_failure_witness :
    roc_string_to_ce_date "112/05" = none ∧
      roc_string_to_ce_date "112/xx/20" = none :=
  ⟨c7_parse_failure.1 "112/05" (by decide),
    c7_parse_failure.1 "112/xx/20" (by decide)⟩

/-! ## Claim C4 -/

/-- C4: the speaker-field transformation on `"王小明1, 陳大文2,  "` yields
exactly the two rows (1, "王小明") and (2, "陳大文") — trailing empty
tokens dropped — and a token without any digit run gets a null
speaker_id. -/
theorem c4_speaker_field :
    parseSpeakerField "王小明1, 陳大文2,  " =
        [(some 1, "王小明"), (some 2, "陳大文")] ∧
      ∀ t : List Char, (∀ ch ∈ t, isDigitC ch = false) →
        extractId t = none := by
  constructor
  · decide
  · intro t ht
    unfold extractId
    have h0 : t.dropWhile (fun c => !isDigitC c) = [] :=
      List.dropWhile_eq_nil_iff.2 (fun x hx => by simp [ht x hx])
    rw [h0]

/-- Witness for C4: a digit-free token gets a null speaker_id. -/
theorem c4_speaker_field_witness : extractId ['x'] = none :=
  c4_speaker_field.2 ['x'] (by decide)

/-! ## Claim C5 -/

/-- C5: a speaker token with no numeric run (such as "unknown") parses to
speaker_id null with the cleaned token as display name; the fact-table load
keeps every file row (null speaker_id included), while every
speaker-dimension entry originates from a row whose speaker_id is non-null
(so no dimension row is ever created from a null speaker_id). -/
theorem c5_null_speaker_id :
    parseSpeakerField "unknown" = [(none, "unknown")] ∧
      (∀ (p : String) (rows : List FileRow) (t : List SpeechRow)
          (r : FileRow),
        r ∈ rows → r.toSpeechRow ∈ loadSpeechData p rows t) ∧
      ∀ (rows : List FileRow) (i : Nat) (n : String),
        (i, n) ∈ extractSpeakers rows →
          (some i, n) ∈ rows.map (fun r => (r.speaker_id, r.speaker)) := by
  refine ⟨by decide, ?_, ?_⟩
  · intro p rows t r hr
    unfold loadSpeechData
    exact List.mem_append_right _ (List.mem_map_of_mem _ hr)
  · intro rows i n h
    unfold extractSpeakers at h
    rcases List.mem_filterMap.1 h with ⟨q, hq, hmap⟩
    rcases q with ⟨sid, nm⟩
    cases sid with
    | none => simp at hmap
    | some j =>
      simp only [Option.map_some', Option.some.injEq, Prod.mk.injEq] at hmap
      obtain ⟨rfl, rfl⟩ := hmap
      exact List.mem_dedup.1 hq

/-- Witness for C5: a concrete row with null speaker_id is kept by the
fact-table load. -/
theorem c5_null_speaker_id_witness :
    FileRow.toSpeechRow
        ⟨⟨2023, 5, 20⟩, "", "", "", "", "unknown", none, "2023-05-01"⟩ ∈
      loadSpeechData "2023-05-01"
        [⟨⟨2023, 5, 20⟩, "", "", "", "", "unknown", none, "2023-05-01"⟩]
        [] :=
  c5_null_speaker_id.2.1 "2023-05-01" _ [] _ (List.mem_singleton.2 rfl)

/-! ## Claim C2 -/

/-- C2: reloading partition `p` (delete-then-insert) leaves exactly the new
row set under `partition_date = p` — the row count equals the new data's
count, never the sum — and rows of other partitions are unchanged by the
reload. -/
theorem c2_partition_reload (p : String) (rows1 rows2 : List FileRow)
    (t : List SpeechRow) (h2 : ∀ r ∈ rows2, r.partition_date = p) :
    (loadSpeechData p rows2 (loadSpeechData p rows1 t)).filter
        (fun r => r.partition_date == p) = rows2.map FileRow.toSpeechRow ∧
      (loadSpeechData p rows2 (loadSpeechData p rows1 t)).filter
          (fun r => r.partition_date != p) =
        (loadSpeechData p rows1 t).filter
          (fun r => r.partition_date != p) ∧
      ((loadSpeechData p rows2 (loadSpeechData p rows1 t)).filter
          (fun r => r.partition_date == p)).length = rows2.length := by
  have key : ∀ t1 : List SpeechRow,
      (loadSpeechData p rows2 t1).filter
          (fun r => r.partition_date == p) = rows2.map FileRow.toSpeechRow ∧
        (loadSpeechData p rows2 t1).filter
            (fun r => r.partition_date != p) =
          t1.filter (fun r => r.partition_date != p) := by
    intro t1
    unfold loadSpeechData
    have e1 : (t1.filter (fun r => r.partition_date != p)).filter
        (fun r => r.partition_date == p) = [] := by
      refine List.filter_eq_nil_iff.2 (fun a ha => ?_)
      have hne := List.of_mem_filter ha
      simp only [bne_iff_ne, ne_eq] at hne
      simp [hne]
    have e2 : (rows2.map FileRow.toSpeechRow).filter
        (fun r => r.partition_date == p) = rows2.map FileRow.toSpeechRow := by
      refine List.filter_eq_self.2 (fun a ha => ?_)
      rcases List.mem_map.1 ha with ⟨r, hr, rfl⟩
      simp [FileRow.toSpeechRow, h2 r hr]
    have e3 : (rows2.map FileRow.toSpeechRow).filter
        (fun r => r.partition_date != p) = [] := by
      refine List.filter_eq_nil_iff.2 (fun a ha => ?_)
      rcases List.mem_map.1 ha with ⟨r, hr, rfl⟩
      simp [FileRow.toSpeechRow, h2 r hr]
    have e4 : (t1.filter (fun r => r.partition_date != p)).filter
        (fun r => r.partition_date != p) =
        t1.filter (fun r => r.partition_date != p) := by
      refine List.filter_eq_self.2 (fun a ha => ?_)
      simpa using List.of_mem_filter ha
    constructor
    · rw [List.filter_append, e1, e2, List.nil_append]
    · rw [List.filter_append, e3, e4, List.append_nil]
  refine ⟨(key _).1, (key _).2, ?_⟩
  rw [(key _).1, List.length_map]

/-- Witness for C2: a concrete reload of partition 2023-01-01 replaces the
single old row with the two new rows and leaves the count at 2. -/
theorem c2_partition_reload_witness :
    ((loadSpeechData "2023-01-01"
          [⟨⟨2023, 1, 2⟩, "s", "n", "c", "u", "甲1", some 1, "2023-01-01"⟩,
            ⟨⟨2023, 1, 3⟩, "s", "n", "c", "u", "乙2", some 2, "2023-01-01"⟩]
          (loadSpeechData "2023-01-01"
            [⟨⟨2023, 1, 2⟩, "s", "n", "c", "u", "甲1", some 1,
              "2023-01-01"⟩]
            [])).filter
        (fun r => r.partition_date == "2023-01-01")).length = 2 :=
  (c2_partition_reload "2023-01-01" _ _ [] (by decide)).2.2

/-! ## Claim C8 -/

/-- C8: the `speech_data` load returns leaving the table unchanged when the
partition file is absent; with a present file it raises before writing,
leaving the table unchanged, exactly when one of the seven expected columns
is missing. -/
theorem c8_load_error_conditions (p : String) (file : Option Frame)
    (table : List SpeechRow) :
    ((speechDataAsset p file table).1 ≠ none ↔
        ∃ df, file = some df ∧ ∃ c ∈ expected_cols, c ∉ df.cols) ∧
      (file = none → speechDataAsset p file table = (none, table)) ∧
      ((speechDataAsset p file table).1 ≠ none →
        (speechDataAsset p file table).2 = table) := by
  rcases file with _ | df
  · exact ⟨by simp [speechDataAsset], fun _ => rfl, fun h => rfl⟩
  · unfold speechDataAsset
    dsimp only
    by_cases hm : (expected_cols.filter
        (fun c => decide (c ∉ df.cols))).isEmpty
    · rw [if_pos hm]
      rw [List.isEmpty_iff] at hm
      refine ⟨?_, fun h => absurd h (by simp), fun h => absurd rfl h⟩
      constructor
      · intro h
        exact absurd rfl h
      · rintro ⟨df', hdf', c, hc, hnc⟩
        injection hdf' with hdf'
        subst hdf'
        have hcol := List.filter_eq_nil_iff.1 hm c hc
        simp only [decide_eq_true_eq, not_not] at hcol
        exact (hnc hcol).elim
    · rw [if_neg hm]
      refine ⟨?_, fun h => absurd h (by simp), fun h => rfl⟩
      constructor
      · intro h
        refine ⟨df, rfl, ?_⟩
        rcases List.exists_mem_of_ne_nil
            (expected_cols.filter (fun c => decide (c ∉ df.cols)))
            (fun hnil => hm (by rw [hnil]; rfl)) with ⟨c, hc⟩
        have hmem := List.mem_of_mem_filter hc
        have hdec := List.of_mem_filter hc
        simp only [decide_eq_true_eq] at hdec
        exact ⟨c, hmem, hdec⟩
      · intro _
        simp

/-- Witness for C8: an absent partition file leaves the table unchanged
without error. -/
theorem c8_load_error_conditions_witness :
    speechDataAsset "2023-01-01" none [] = (none, []) :=
  (c8_load_error_conditions "2023-01-01" none []).2.1 rfl

/-! ## Lemmas: the speaker-dimension upsert -/

theorem hasKey_iff {t : List (Nat × String)} {i : Nat} :
    hasKey t i = true ↔ i ∈ keysOf t := by
  unfold hasKey keysOf
  rw [List.any_eq_true]
  constructor
  · rintro ⟨q, hq, hqi⟩
    exact List.mem_map.2 ⟨q, hq, by simpa using hqi⟩
  · rintro h
    rcases List.mem_map.1 h with ⟨q, hq, hqi⟩
    exact ⟨q, hq, by simp [hqi]⟩

theorem hasKey_congr {t1 t2 : List (Nat × String)} {i : Nat}
    (h : i ∈ keysOf t1 ↔ i ∈ keysOf t2) : hasKey t1 i = hasKey t2 i := by
  cases h1 : hasKey t1 i with
  | true => exact (hasKey_iff.2 (h.1 (hasKey_iff.1 h1))).symm
  | false =>
    cases h2 : hasKey t2 i with
    | false => rfl
    | true =>
      exact absurd (hasKey_iff.2 (h.2 (hasKey_iff.1 h2))) (by simp [h1])

theorem keysOf_upsertSpeaker (t : List (Nat × String)) (q : Nat × String) :
    keysOf (upsertSpeaker t q) =
      if hasKey t q.1 then keysOf t else keysOf t ++ [q.1] := by
  unfold upsertSpeaker
  split
  · unfold keysOf
    rw [List.map_map]
    refine List.map_congr_left (fun r hr => ?_)
    dsimp only [Function.comp]
    split <;> rfl
  · unfold keysOf
    simp

theorem nodup_keys_upsertSpeaker {t : List (Nat × String)}
    (ht : (keysOf t).Nodup) (q : Nat × String) :
    (keysOf (upsertSpeaker t q)).Nodup := by
  rw [keysOf_upsertSpeaker]
  split
  · exact ht
  · rename_i h
    refine List.nodup_append.2 ⟨ht, List.nodup_singleton _, ?_⟩
    intro x hx hx1
    rw [List.mem_singleton] at hx1
    subst hx1
    exact h (hasKey_iff.2 hx)

theorem length_upsertSpeaker (t : List (Nat × String)) (q : Nat × String) :
    (upsertSpeaker t q).length =
      if hasKey t q.1 then t.length else t.length + 1 := by
  unfold upsertSpeaker
  split <;> simp_all

theorem mem_upsertSpeaker_self (t : List (Nat × String))
    (q : Nat × String) : q ∈ upsertSpeaker t q := by
  unfold upsertSpeaker
  split
  · rename_i h
    rcases List.any_eq_true.1 h with ⟨r, hr, hrq⟩
    rw [beq_iff_eq] at hrq
    refine List.mem_map.2 ⟨r, hr, ?_⟩
    simp [hrq]
  · exact List.mem_append_right _ (List.mem_singleton.2 rfl)

theorem mem_upsertSpeaker_of_ne {t : List (Nat × String)}
    {r q : Nat × String} (hr : r ∈ t) (hne : r.1 ≠ q.1) :
    r ∈ upsertSpeaker t q := by
  unfold upsertSpeaker
  split
  · refine List.mem_map.2 ⟨r, hr, ?_⟩
    simp [hne]
  · exact List.mem_append_left _ hr

theorem mem_upsertSpeakers_of_not_key {r : Nat × String} :
    ∀ (ins : List (Nat × String)) (t : List (Nat × String)), r ∈ t →
      r.1 ∉ keysOf ins → r ∈ upsertSpeakers t ins := by
  intro ins
  induction ins with
  | nil => intro t h _; exact h
  | cons q rest ih =>
    intro t hr hk
    have h1 : r.1 ≠ q.1 := by
      intro he
      refine hk ?_
      rw [he]
      exact List.mem_cons_self _ _
    show r ∈ upsertSpeakers (upsertSpeaker t q) rest
    exact ih _ (mem_upsertSpeaker_of_ne hr h1)
      (fun hm => hk (List.mem_cons_of_mem _ hm))

/-! ## Claim C3 -/

/-- C3: the speaker dimension keeps at most one row per speaker_id through
every upsert: with key-unique table and incoming set, the result is
key-unique, every incoming (speaker_id, name) pair ends up stored (an
already-present id has its name overwritten in place), and the row count
grows exactly by the number of genuinely new speaker_ids — never for an
already-present id. -/
theorem c3_speaker_upsert :
    ∀ (ins t : List (Nat × String)), (keysOf t).Nodup →
      (keysOf ins).Nodup →
      (keysOf (upsertSpeakers t ins)).Nodup ∧
        (∀ q ∈ ins, q ∈ upsertSpeakers t ins) ∧
        (upsertSpeakers t ins).length =
          t.length + (ins.filter (fun q => !(hasKey t q.1))).length := by
  intro ins
  induction ins with
  | nil =>
    intro t ht _
    exact ⟨ht, by simp, by simp [upsertSpeakers]⟩
  | cons q rest ih =>
    intro t ht hins
    have hins' : q.1 ∉ keysOf rest ∧ (keysOf rest).Nodup := by
      have : keysOf (q :: rest) = q.1 :: keysOf rest := rfl
      rw [this, List.nodup_cons] at hins
      exact hins
    have ht' := nodup_keys_upsertSpeaker ht q
    obtain ⟨ih1, ih2, ih3⟩ := ih (upsertSpeaker t q) ht' hins'.2
    refine ⟨ih1, ?_, ?_⟩
    · intro q' hq'
      rcases List.mem_cons.1 hq' with rfl | hq'
      · show q' ∈ upsertSpeakers (upsertSpeaker t q') rest
        exact mem_upsertSpeakers_of_not_key rest _
          (mem_upsertSpeaker_self t q') hins'.1
      · exact ih2 q' hq'
    · show (upsertSpeakers (upsertSpeaker t q) rest).length =
        t.length + ((q :: rest).filter (fun r => !(hasKey t r.1))).length
      rw [ih3, length_upsertSpeaker]
      by_cases hk : hasKey t q.1 = true
      · rw [if_pos hk, List.filter_cons_of_neg (by simp [hk])]
        have hcong : rest.filter
            (fun r => !(hasKey (upsertSpeaker t q) r.1)) =
            rest.filter (fun r => !(hasKey t r.1)) := by
          refine List.filter_congr (fun x hx => ?_)
          have hkeys : keysOf (upsertSpeaker t q) = keysOf t := by
            rw [keysOf_upsertSpeaker, if_pos hk]
          have hiff : x.1 ∈ keysOf (upsertSpeaker t q) ↔
              x.1 ∈ keysOf t := by rw [hkeys]
          rw [hasKey_congr hiff]
        rw [hcong]
      · rw [if_neg hk, List.filter_cons_of_pos (by simp [hk])]
        have hcong : rest.filter
            (fun r => !(hasKey (upsertSpeaker t q) r.1)) =
            rest.filter (fun r => !(hasKey t r.1)) := by
          refine List.filter_congr (fun x hx => ?_)
          have hx1 : x.1 ≠ q.1 := by
            intro he
            exact hins'.1 (he ▸ List.mem_map.2 ⟨x, hx, rfl⟩)
          have hiff : x.1 ∈ keysOf (upsertSpeaker t q) ↔
              x.1 ∈ keysOf t := by
            rw [keysOf_upsertSpeaker, if_neg hk]
            simp [hx1]
          rw [hasKey_congr hiff]
        rw [hcong]
        simp only [List.length_cons]
        omega

/-- Witness for C3: upserting an existing id 1 with a new name and a new
id 2 stores both, keeps the keys unique, and grows the count only by the
new id. -/
theorem c3_speaker_upsert_witness :
    (keysOf (upsertSpeakers [(1, "甲")] [(1, "乙"), (2, "丙")])).Nodup ∧
      (1, "乙") ∈ upsertSpeakers [(1, "甲")] [(1, "乙"), (2, "丙")] ∧
      (upsertSpeakers [(1, "甲")] [(1, "乙"), (2, "丙")]).length = 2 := by
  have h := c3_speaker_upsert [(1, "乙"), (2, "丙")] [(1, "甲")]
    (by decide) (by decide)
  exact ⟨h.1, h.2.1 (1, "乙") (by decide), by
    have h3 := h.2.2
    simpa using h3⟩

/-! ## Lemmas: the aggregation query -/

theorem length_speakersFor_le_one {dim : List (Nat × String)}
    (hdim : (keysOf dim).Nodup) (sid : Option Nat) :
    (speakersFor dim sid).length ≤ 1 := by
  cases sid with
  | none => simp [speakersFor]
  | some i =>
    unfold speakersFor
    rw [List.length_map, ← List.countP_eq_length_filter]
    have h2 : List.countP (fun k => k == i) (keysOf dim) =
        List.countP (fun q : Nat × String => q.1 == i) dim := by
      unfold keysOf
      rw [List.countP_map]
      rfl
    rw [← h2]
    exact List.nodup_iff_count_le_one.1 hdim i

theorem speakersFor_eq_nil {dim : List (Nat × String)} {sid : Option Nat}
    (h : sid = none ∨ ∃ i, sid = some i ∧ i ∉ keysOf dim) :
    speakersFor dim sid = [] := by
  rcases h with rfl | ⟨i, rfl, hi⟩
  · rfl
  · have hfil : dim.filter (fun q : Nat × String => q.1 == i) = [] :=
      List.filter_eq_nil_iff.2
        (fun q hq hbe => hi (List.mem_map.2 ⟨q, hq, beq_iff_eq.1 hbe⟩))
    simp [speakersFor, hfil]

theorem sum_le_length {L : List Nat} (hle : ∀ x ∈ L, x ≤ 1) :
    L.sum ≤ L.length := by
  induction L with
  | nil => simp
  | cons a l ih =>
    have hl := ih (fun x hx => hle x (List.mem_cons_of_mem a hx))
    have ha := hle a (List.mem_cons_self a l)
    simp only [List.sum_cons, List.length_cons]
    omega

theorem sum_lt_length {L : List Nat} (hle : ∀ x ∈ L, x ≤ 1) (h0 : 0 ∈ L) :
    L.sum < L.length := by
  induction L with
  | nil => simp at h0
  | cons a l ih =>
    simp only [List.sum_cons, List.length_cons]
    rcases List.mem_cons.1 h0 with rfl | h0'
    · have := sum_le_length (fun x hx => hle x (List.mem_cons_of_mem _ hx))
      omega
    · have := ih (fun x hx => hle x (List.mem_cons_of_mem a hx)) h0'
      have ha := hle a (List.mem_cons_self a l)
      omega

theorem sumCounts_speech_count (facts : List SpeechRow)
    (dim : List (Nat × String)) :
    sumCounts (speech_count facts dim) = (joinedNames facts dim).length := by
  unfold sumCounts speech_count
  dsimp only
  have hperm := List.perm_insertionSort
    (fun a b : String × Nat => b.2 ≤ a.2)
    ((joinedNames facts dim).dedup.map
      (fun n => (n, (joinedNames facts dim).count n)))
  rw [(hperm.map Prod.snd).sum_eq, List.map_map]
  exact List.sum_map_count_dedup_eq_length (joinedNames facts dim)

/-! ## Claim C9 -/

/-- C9: the aggregation joins facts to the speaker dimension on
speaker_id, groups by display name, counts, and orders descending by
count; over fact rows with speaker_ids [A, B, A] where A maps to "甲" and
B to "乙", the result is [("甲", 2), ("乙", 1)], and every output of
`speech_count` is sorted descending by count. -/
theorem c9_speech_count_aggregation :
    speech_count
        [⟨⟨2023, 5, 20⟩, "s", "n", "c", "u", some 1, "2023-05-01"⟩,
          ⟨⟨2023, 5, 20⟩, "s", "n", "c", "u", some 2, "2023-05-01"⟩,
          ⟨⟨2023, 5, 20⟩, "s", "n", "c", "u", some 1, "2023-05-01"⟩]
        [(1, "甲"), (2, "乙")] = [("甲", 2), ("乙", 1)] ∧
      ∀ (facts : List SpeechRow) (dim : List (Nat × String)),
        (speech_count facts dim).Sorted
          (fun a b : String × Nat => b.2 ≤ a.2) := by
  constructor
  · decide
  · intro facts dim
    letI : IsTotal (String × Nat) (fun a b : String × Nat => b.2 ≤ a.2) :=
      ⟨fun a b => le_total b.2 a.2⟩
    letI : IsTrans (String × Nat) (fun a b : String × Nat => b.2 ≤ a.2) :=
      ⟨fun a b c hab hbc => le_trans hbc hab⟩
    exact List.sorted_insertionSort _ _

/-! ## Claim C10 -/

/-- C10: the aggregation's inner join drops every fact row whose
speaker_id is null or absent from the speaker dimension, so when such a
row exists (and the dimension is key-unique) the sum of all reported
per-speaker counts is strictly smaller than the fact-table row count. -/
theorem c10_inner_join_undercount (facts : List SpeechRow)
    (dim : List (Nat × String)) (hdim : (keysOf dim).Nodup)
    (hex : ∃ r ∈ facts, r.speaker_id = none ∨
      ∃ i, r.speaker_id = some i ∧ i ∉ keysOf dim) :
    sumCounts (speech_count facts dim) < facts.length := by
  rw [sumCounts_speech_count]
  unfold joinedNames
  rw [List.length_flatMap]
  have hlen : facts.length =
      (facts.map
        (List.length ∘ fun r => speakersFor dim r.speaker_id)).length := by
    rw [List.length_map]
  rw [hlen]
  apply sum_lt_length
  · intro x hx
    rcases List.mem_map.1 hx with ⟨r, hr, rfl⟩
    exact length_speakersFor_le_one hdim r.speaker_id
  · rcases hex with ⟨r, hr, hcond⟩
    refine List.mem_map.2 ⟨r, hr, ?_⟩
    have hnil : speakersFor dim r.speaker_id = [] := speakersFor_eq_nil hcond
    simp [Function.comp, hnil]

/-- Witness for C10: one fact row with a null speaker_id and an empty
dimension gives total reported count 0, strictly below the one fact row. -/
theorem c10_inner_join_undercount_witness :
    sumCounts (speech_count
      [⟨⟨2023, 5, 20⟩, "s", "n", "c", "u", none, "2023-05-01"⟩] []) < 1 :=
  c10_inner_join_undercount
    [⟨⟨2023, 5, 20⟩, "s", "n", "c", "u", none, "2023-05-01"⟩] []
    (by decide)
    ⟨⟨⟨2023, 5, 20⟩, "s", "n", "c", "u", none, "2023-05-01"⟩,
      List.mem_singleton.2 rfl, Or.inl rfl⟩

end LiYuan
